import Mathlib

/-!
# Verification of the mdbook-bookimport directive resolution engine

This development is a shallow embedding of `src/lib.rs` of mdbook-bookimport:
the directive scanner (`SUPERIMPORT_REGEX` / `find_unescaped_bookimports`),
the tag extractor (`read_content_between_tags`), the substitution step and
the recursive chapter walker (`process_chapter`).

Strings are modelled as `List Char`; all indices are character indices
(every input appearing in the theorems below is ASCII, where character and
byte indices coincide).  The two regular expressions of the source are
hand-compiled into executable Lean functions under the `regex` crate's
leftmost-first match semantics; each compilation step is documented at the
corresponding definition.  Rust panics (`unwrap`, `expect`, `panic!`) are
modelled as an `Except` error of type `PanicKind`; the `Result` values the
Rust functions return are modelled on top of that, so `.ok` results are the
values the Rust code actually returns and `.error` results are aborts of the
whole run.
-/

namespace Bookimport

/-- `\s` of the `regex` crate on ASCII input: space, tab, newline, vertical
tab, form feed, carriage return. -/
def isWs (c : Char) : Bool :=
  c = ' ' || c = '\t' || c = '\n' || c = '\x0b' || c = '\x0c' || c = '\r'

/-- The tag character class `[a-zA-Z0-9_.\-]` of `SUPERIMPORT_REGEX`. -/
def isTagChar (c : Char) : Bool :=
  c.isAlpha || c.isDigit || c = '_' || c = '.' || c = '-'

/-- The file character class of `SUPERIMPORT_REGEX`: letters, digits,
whitespace, underscore, dot, dash, slash, backslash. -/
def isFileChar (c : Char) : Bool :=
  c.isAlpha || c.isDigit || isWs c || c = '_' || c = '.' || c = '-' ||
    c = '/' || c = '\\'

/-- A newline character, the class `[\n\r]` of the tag-extraction regex. -/
def nlChar (c : Char) : Bool := c = '\n' || c = '\r'

/-- Strip a literal off the front of the input: `dropLit pat l` is
`some rest` when `l = pat ++ rest`, and `none` otherwise.  Models matching
a literal piece of a regular expression. -/
def dropLit : List Char → List Char → Option (List Char)
  | [], l => some l
  | _ :: _, [] => none
  | p :: ps, c :: cs => if p = c then dropLit ps cs else none

theorem dropLit_self_append (p l : List Char) : dropLit p (p ++ l) = some l := by
  induction p with
  | nil => rfl
  | cons c cs ih => simp [dropLit, ih]

theorem dropLit_eq_some {p l r : List Char} (h : dropLit p l = some r) :
    l = p ++ r := by
  induction p generalizing l with
  | nil =>
    simp only [dropLit, Option.some.injEq] at h
    simp [h]
  | cons c cs ih =>
    cases l with
    | nil => simp [dropLit] at h
    | cons d ds =>
      by_cases hc : c = d
      · subst hc
        simp only [dropLit, if_pos rfl] at h
        simpa using ih h
      · simp [dropLit, hc] at h

/-! ## The scanner: `SUPERIMPORT_REGEX`

an alternation, in verbose mode, of `/{{#` ++ dot-star ++ `}}` (the escaped
import) with the live form: `{{`, optional whitespace, `#bookimport`,
required whitespace, the `file` capture (one or more file-class characters),
`@`, the `tag` capture (one or more tag-class characters), optional
whitespace, `}}`.

The two alternatives start with distinct characters (`/` and `{`), so at any
given position at most one of them can match; the crate's leftmost-first
semantics therefore reduce to: scan left to right, at each position try the
escaped alternative, then the live one. -/

/-- Greedy `.*\}\}` of the escaped alternative: the largest `k` such that the
first `k` characters contain no `'\n'` (`.` does not match `'\n'`; it does
match `'\r'`) and are followed by `"}}"`.  Returns that `k`. -/
def lastBraces : List Char → Option Nat
  | [] => none
  | c :: rest =>
    if c = '\n' then none
    else
      match lastBraces rest with
      | some k => some (k + 1)
      | none => if c = '}' ∧ rest.head? = some '}' then some 0 else none

/-- The escaped alternative `/\{\{\#.*\}\}`: the literal `/{{#` (note: no
whitespace is allowed between `{{` and `#`), then greedy `.*`, then `}}`.
Returns the length of the (greedily preferred) match. -/
def matchEscapedAt (l : List Char) : Option Nat :=
  match l with
  | a :: b :: c :: d :: rest =>
    if a = '/' ∧ b = '{' ∧ c = '{' ∧ d = '#' then
      (lastBraces rest).map (· + 2 + 4)
    else none
  | _ => none

/-- The live alternative of `SUPERIMPORT_REGEX`, compiled piecewise:

* `\{\{` — literal;
* `\s*` then `\#bookimport` — `#` is not whitespace, so the greedy `\s*` is
  exactly the maximal whitespace run;
* `\s+(?P<file>[...]+)@` — the file class contains `\s`, so the two pieces
  together consume exactly the maximal run `R` of file characters (none of
  which can be `@`), which must be followed by `@`, must start with a
  whitespace character (for `\s+`) and must have length ≥ 2 (so that the
  capture is non-empty).  The greedy `\s+` takes the maximal whitespace
  prefix `W` of `R` and the capture is the rest, except that when `R` is all
  whitespace `\s+` backs off one character so that the capture is the last
  character of `R`;
* `@` then `(?P<tag>[...]+)` — maximal run of tag characters, non-empty
  (tag characters are never whitespace or `}`);
* `\s*\}\}` — maximal whitespace run, then the literal `}}`.

Returns `(length of match, file capture, tag capture)`. -/
def matchLiveAt (l : List Char) : Option (Nat × List Char × List Char) :=
  match dropLit ['{', '{'] l with
  | none => none
  | some r1 =>
    let ws0 := r1.takeWhile isWs
    match dropLit ("#bookimport".toList) (r1.dropWhile isWs) with
    | none => none
    | some r2 =>
      let R := r2.takeWhile isFileChar
      if 2 ≤ R.length ∧ R.head?.any isWs then
        match r2.dropWhile isFileChar with
        | '@' :: r4 =>
          let T := r4.takeWhile isTagChar
          if 1 ≤ T.length then
            let r5 := r4.dropWhile isTagChar
            let S := r5.takeWhile isWs
            match dropLit ['}', '}'] (r5.dropWhile isWs) with
            | none => none
            | some _ =>
              let W := R.takeWhile isWs
              let file :=
                if W.length = R.length then R.drop (R.length - 1)
                else R.drop W.length
              some (2 + ws0.length + 11 + R.length + 1 + T.length + S.length + 2,
                    file, T)
          else none
        | _ => none
      else none

/-- One raw match of `SUPERIMPORT_REGEX`.  `live = none` models a match of
the escaped alternative, which has no capture groups; `live = some (f, t)`
carries the `file` and `tag` captures of the live alternative. -/
structure RawMatch where
  start : Nat
  len : Nat
  live : Option (List Char × List Char)
  deriving Repr, DecidableEq

/-- Try both alternatives at the current position, escaped first (the
alternation order of `SUPERIMPORT_REGEX`; the two alternatives can in fact
never match at the same position since they require distinct first
characters). -/
def tryMatchAt (l : List Char) : Option (Nat × Option (List Char × List Char)) :=
  match matchEscapedAt l with
  | some len => some (len, none)
  | none =>
    match matchLiveAt l with
    | some (len, f, t) => some (len, some (f, t))
    | none => none

/-- `captures_iter`: successive non-overlapping leftmost-first matches, each
search resuming at the end of the previous match.  `fuel` bounds the number
of steps; the wrapper `scanChapter` passes `content.length`, which always
suffices because every step either stops or consumes at least one
character. -/
def scanLoop : Nat → Nat → List Char → List RawMatch
  | 0, _, _ => []
  | _ + 1, _, [] => []
  | fuel + 1, pos, c :: rest =>
    match tryMatchAt (c :: rest) with
    | some (len, live) =>
      ⟨pos, len, live⟩ :: scanLoop fuel (pos + len) ((c :: rest).drop len)
    | none => scanLoop fuel (pos + 1) rest

/-- All matches of `SUPERIMPORT_REGEX` in a chapter body, in scan order. -/
def scanChapter (content : List Char) : List RawMatch :=
  scanLoop content.length 0 content

/-- A parsed bookimport occurrence: the struct `BookImport` of the source
(the `host_chapter` back-reference is omitted; `end` of the source is
spelled `endIdx`, `end` being reserved in Lean). -/
structure BookImport where
  file : List Char
  full_simport_text : List Char
  tag : List Char
  start : Nat
  endIdx : Nat
  deriving Repr, DecidableEq

/-- `BookImport::find_unescaped_bookimports`: every regex match whose text
starts with the escape character `/` is skipped (`continue` in the source);
for the others the `file` and `tag` captures and the span are recorded.
A match whose text does not start with `/` always comes from the live
alternative (that alternative's matches start with `{`), so the capture
groups are present; the defensive `none` branch below is unreachable. -/
def find_unescaped_bookimports (content : List Char) : List BookImport :=
  (scanChapter content).filterMap fun m =>
    let ftext := (content.drop m.start).take m.len
    if ftext.head? = some '/' then none
    else
      match m.live with
      | some (f, t) => some ⟨f, ftext, t, m.start, m.start + m.len⟩
      | none => none

/-! ## The tag extractor: `read_content_between_tags`

The dynamically built regex is, in verbose mode with the whitespace
stripped: `@book`, `\s+`, `start`, `\s+`, the tag literal, a lazy dot-star,
one newline character, the greedy `content_to_import` group matching any
characters, one newline character, a lazy dot-star, `@book`, `\s+`, `end`,
`\s+`, the tag literal.

Hand-compilation notes (leftmost-first semantics):
* every `\s+` is followed by a literal beginning with a non-whitespace
  character (`start`, `end`, or a tag produced by the scanner, whose
  characters are never whitespace), so it consumes exactly the maximal
  whitespace run, which must be non-empty;
* the lazy dot-star before the first newline stops at the first newline
  character (`.` does not match `'\n'`, so it cannot scan past one);
* the greedy content group prefers the longest text, so the newline closing
  it is the **last** newline character from which the rest of the pattern
  (a lazy dot-star and the end-marker literal piece) can still match;
* nothing of the pattern follows the final tag literal, so text after the
  matched end marker is unconstrained. -/

/-- Does `@book\s+end\s+<tag>` match as a prefix of `l`? -/
def endMarkerAt (tag l : List Char) : Bool :=
  match dropLit ("@book".toList) l with
  | none => false
  | some r1 =>
    if (r1.takeWhile isWs).length = 0 then false
    else
      match dropLit ("end".toList) (r1.dropWhile isWs) with
      | none => false
      | some r2 =>
        if (r2.takeWhile isWs).length = 0 then false
        else (dropLit tag (r2.dropWhile isWs)).isSome

/-- The lazy `.*?` before the end marker: try the end marker at the current
position, else step over one non-`'\n'` character and retry. -/
def endSearch (tag : List Char) : List Char → Bool
  | [] => false
  | c :: rest =>
    if endMarkerAt tag (c :: rest) then true
    else if c = '\n' then false
    else endSearch tag rest

/-- The greedy content group: the largest index `n` such that `l` has a
newline character at `n` and the end marker is reachable (via the lazy
dot-star) right after it.  Looks at deeper positions first, so the returned
index is maximal. -/
def lastViable (tag : List Char) : List Char → Option Nat
  | [] => none
  | c :: rest =>
    match lastViable tag rest with
    | some n => some (n + 1)
    | none => if nlChar c ∧ endSearch tag rest then some 0 else none

/-- The lazy dot-star after the start tag followed by `[\n\r]`: skip to the
first newline character and consume it. -/
def skipToNl : List Char → Option (List Char)
  | [] => none
  | c :: rest => if nlChar c then some rest else skipToNl rest

/-- Match the whole extraction pattern at the current position, returning
the preferred `content_to_import` capture. -/
def extractAt (tag l : List Char) : Option (List Char) :=
  match dropLit ("@book".toList) l with
  | none => none
  | some r1 =>
    if (r1.takeWhile isWs).length = 0 then none
    else
      match dropLit ("start".toList) (r1.dropWhile isWs) with
      | none => none
      | some r2 =>
        if (r2.takeWhile isWs).length = 0 then none
        else
          match dropLit tag (r2.dropWhile isWs) with
          | none => none
          | some r3 =>
            match skipToNl r3 with
            | none => none
            | some r4 =>
              match lastViable tag r4 with
              | none => none
              | some n => some (r4.take n)

/-- `Regex::captures` on the whole file: the leftmost position at which the
pattern matches, with the capture preferred there. -/
def bookCaptures (tag : List Char) : List Char → Option (List Char)
  | [] => extractAt tag []
  | l@(_ :: rest) =>
    match extractAt tag l with
    | some c => some c
    | none => bookCaptures tag rest

/-- The content of a file on disk: either text (valid UTF-8) or bytes that
are not valid UTF-8. -/
inductive FileData where
  | valid (content : List Char)
  | invalid
  deriving Repr, DecidableEq

/-- A path, as the list of its components.  `Path::join` of the source
appends; no normalization is performed by the code, and none is modelled.
The empty list models a path without a parent component (such as the empty
path), for which `Path::parent` returns `None`. -/
abbrev PathC := List (List Char)

/-- The filesystem visible to the run: a finite map from paths to file
contents.  `std::fs::read` succeeds exactly on the recorded paths. -/
abbrev FS := List (PathC × FileData)

/-- The Rust panics of `lib.rs`, each identified by its site:
`expect("All book items have a parent")`, `fs::read(..).unwrap()`,
`String::from_utf8(..).unwrap()`, `captures(..).unwrap()`, and the
`panic!` in `process_chapter` on an `Err` from
`read_content_between_tags`. -/
inductive PanicKind where
  | noParent
  | readUnwrap
  | utf8Unwrap
  | capturesUnwrap
  | readContentErr
  deriving Repr, DecidableEq

/-- The error enum `TagError` of the source.  Its only variant is marked
`#[allow(unused)]` and is never constructed. -/
inductive TagError where
  | MissingStartTag (tag : List Char)
  deriving Repr, DecidableEq

/-- `BookImport::read_content_between_tags`.  The Rust signature is
`Result<String, TagError>`; on top of it the `unwrap` calls are modelled as
`.error : PanicKind` outcomes, so the result type is
`Except PanicKind (Except TagError (List Char))` and `.ok (.ok c)` is the
only non-panicking outcome the code can produce. -/
def read_content_between_tags (si : BookImport) (chapter_dir : PathC)
    (fs : FS) : Except PanicKind (Except TagError (List Char)) :=
  let path := chapter_dir ++ [si.file]
  match fs.lookup path with
  | none => .error .readUnwrap
  | some .invalid => .error .utf8Unwrap
  | some (.valid content) =>
    match bookCaptures si.tag content with
    | none => .error .capturesUnwrap
    | some c => .ok (.ok c)

/-! ## Substitution and the chapter walker -/

/-- Rust `str::replace`: replace every non-overlapping occurrence of `pat`
in `s` by `rep`, scanning left to right.  `fuel` bounds the recursion; the
wrapper passes `s.length`, which always suffices because every step consumes
at least one character of `s` (the only caller passes the matched directive
text as `pat`, which is never empty; for an empty `pat` this model returns
`s` unchanged). -/
def replaceLoop : Nat → List Char → List Char → List Char → List Char
  | 0, s, _, _ => s
  | fuel + 1, s, pat, rep =>
    if pat ≠ [] ∧ pat.isPrefixOf s then
      rep ++ replaceLoop fuel (s.drop pat.length) pat rep
    else
      match s with
      | [] => []
      | c :: rest => c :: replaceLoop fuel rest pat rep

/-- `content.replace(pat, rep)` of the source (line 84 of `lib.rs`): a
search-and-replace of **all** occurrences of `pat`. -/
def replaceAll (s pat rep : List Char) : List Char :=
  replaceLoop s.length s pat rep

/-- `Path::parent`, on component lists: the empty path has no parent;
otherwise drop the last component. -/
def parentOf : PathC → Option PathC
  | [] => none
  | l@(_ :: _) => some l.dropLast

/-- A node of the book tree: `BookItem::Chapter` with its name, content,
source path and sub-items, or any non-chapter item (`Separator`,
`PartTitle`), which `process_chapter` leaves untouched. -/
inductive BookItem where
  | chapter (name : List Char) (content : List Char) (path : PathC)
      (subItems : List BookItem)
  | other
  deriving Repr

/-- The replacement loop of `process_chapter` (lines 76–85 of `lib.rs`):
for each simport, read the content between its tags (a `panic!` — modelled
`.error .readContentErr` — on an `Err`, which in fact never occurs) and
replace every occurrence of the simport's literal text.  The caller passes
the simports in reverse order, as `simports.iter().rev()` does. -/
def replaceSimports (fs : FS) (chapter_dir : PathC) :
    List Char → List BookImport → Except PanicKind (List Char)
  | content, [] => .ok content
  | content, si :: rest =>
    match read_content_between_tags si chapter_dir fs with
    | .error p => .error p
    | .ok (.error _) => .error .readContentErr
    | .ok (.ok new_content) =>
      replaceSimports fs chapter_dir
        (replaceAll content si.full_simport_text new_content) rest

mutual

/-- `process_chapter`: for a chapter, compute the chapter directory from the
parent of the chapter's own path joined under `book_src_dir` (an `expect`
panic when the path has no parent), resolve and substitute every unescaped
bookimport of its body, then recurse into every sub-item with the same
`book_src_dir`.  Non-chapter items pass through unchanged. -/
def process_chapter (fs : FS) (book_src_dir : PathC) :
    BookItem → Except PanicKind BookItem
  | .other => .ok .other
  | .chapter name content path subs =>
    match parentOf path with
    | none => .error .noParent
    | some dir =>
      let chapter_dir := book_src_dir ++ dir
      let simports := find_unescaped_bookimports content
      match replaceSimports fs chapter_dir content simports.reverse with
      | .error p => .error p
      | .ok newContent =>
        match processItems fs book_src_dir subs with
        | .error p => .error p
        | .ok newSubs => .ok (.chapter name newContent path newSubs)

/-- Processing of the sub-item list of a chapter, in order, stopping at the
first panic (a panic anywhere aborts the whole run). -/
def processItems (fs : FS) (book_src_dir : PathC) :
    List BookItem → Except PanicKind (List BookItem)
  | [] => .ok []
  | i :: rest =>
    match process_chapter fs book_src_dir i with
    | .error p => .error p
    | .ok i' =>
      match processItems fs book_src_dir rest with
      | .error p => .error p
      | .ok rest' => .ok (i' :: rest')
end

/-! ## Supporting lemmas -/

theorem parentOf_of_ne_nil {path : PathC} (h : path ≠ []) :
    parentOf path = some path.dropLast := by
  cases path with
  | nil => exact absurd rfl h
  | cons a l => rfl

theorem find_unescaped_eq_nil {content : List Char}
    (h : ∀ m ∈ scanChapter content, m.live = none) :
    find_unescaped_bookimports content = [] := by
  unfold find_unescaped_bookimports
  rw [List.filterMap_eq_nil_iff]
  intro m hm
  simp [h m hm]

/-! ## Claims C1, C4, C7, C9, C10 -/

/-- The failing input for claim C1: a body with a live directive and an
escaped copy of the same directive, and a filesystem resolving the
directive's tag region to `X`. -/
def c1Body : List Char :=
  "\x7b\x7b#bookimport a.txt@t \x7d\x7d\n/\x7b\x7b#bookimport a.txt@t \x7d\x7d".toList

def c1FS : FS :=
  [(["a.txt".toList], .valid "@book start t\nX\n@book end t\n".toList)]

/-- Claim C1: substitution is claimed to replace each directive's exact
source span only.  The code instead calls `content.replace`, a
search-and-replace of **all** occurrences of the directive's literal text
(line 84 of `lib.rs`): on `c1Body` the replacement also rewrites the inside
of the escaped directive, producing `X\n/X` instead of leaving the escaped
occurrence intact — contradicting the code's own comment that escaped
imports are not replaced. -/
theorem claim_C1_replace_all_eval :
    process_chapter c1FS [] (.chapter "c".toList c1Body ["ch.md".toList] [])
      = .ok (.chapter "c".toList "X\n/X".toList ["ch.md".toList] [])
    ∧ "X\n/X".toList ≠ ("X\n" ++ "/\x7b\x7b#bookimport a.txt@t \x7d\x7d").toList :=
  ⟨rfl, by decide⟩

/-- Claim C4 (amended): when the last unescaped simport of a chapter refers
to a file that is absent from the filesystem, or present but not valid
UTF-8, `process_chapter` panics (`fs::read(..).unwrap()` resp.
`String::from_utf8(..).unwrap()`), aborting the whole tree: no partial
document is produced, whatever the sub-items are.  No `FileNotFound` or
`InvalidEncoding` error value exists in the code. -/
theorem claim_C4_missing_file_panics (fs : FS) (bsd : PathC)
    (n content : List Char) (path : PathC) (subs : List BookItem)
    (s : BookImport) (hpath : path ≠ [])
    (hlast : (find_unescaped_bookimports content).getLast? = some s) :
    (fs.lookup ((bsd ++ path.dropLast) ++ [s.file]) = none →
      process_chapter fs bsd (.chapter n content path subs)
        = .error .readUnwrap)
    ∧ (fs.lookup ((bsd ++ path.dropLast) ++ [s.file]) = some .invalid →
      process_chapter fs bsd (.chapter n content path subs)
        = .error .utf8Unwrap) := by
  have hdir := parentOf_of_ne_nil hpath
  cases hrev : (find_unescaped_bookimports content).reverse with
  | nil =>
    rw [← List.head?_reverse, hrev] at hlast
    simp at hlast
  | cons a t =>
    have ha : a = s := by
      rw [← List.head?_reverse, hrev] at hlast
      simpa using hlast
    subst ha
    constructor
    · intro hnone
      simp only [List.append_assoc] at hnone
      simp [process_chapter, hdir, hrev, replaceSimports,
        read_content_between_tags, hnone]
    · intro hinv
      simp only [List.append_assoc] at hinv
      simp [process_chapter, hdir, hrev, replaceSimports,
        read_content_between_tags, hinv]

def c4Body : List Char := "\x7b\x7b#bookimport a.txt@t \x7d\x7d".toList

def c4Simport : BookImport :=
  ⟨"a.txt".toList, "\x7b\x7b#bookimport a.txt@t \x7d\x7d".toList, "t".toList, 0, 24⟩

/-- Witness for C4: on the empty filesystem the directive's file is absent
and processing the chapter panics at the `fs::read` unwrap. -/
theorem claim_C4_witness :
    process_chapter [] [] (.chapter "c".toList c4Body ["ch.md".toList] [])
      = .error .readUnwrap :=
  (claim_C4_missing_file_panics [] [] "c".toList c4Body ["ch.md".toList] []
    c4Simport (by decide) (by decide)).1 rfl

def c4xBody : List Char := "\x7b\x7b#bookimport bad.txt@t \x7d\x7d".toList

def c4xFS : FS := [(["bad.txt".toList], .invalid)]

/-- Counterexample to C4 as stated: a referenced file that exists but is
not valid UTF-8 does not produce an `InvalidEncoding` error value — no such
error exists in the code; processing panics at the `String::from_utf8`
unwrap. -/
theorem claim_C4_counterexample :
    process_chapter c4xFS [] (.chapter "c".toList c4xBody ["ch.md".toList] [])
      = .error .utf8Unwrap := rfl

/-- Claim C7: a chapter body in which every match of the scanner is of the
escaped alternative is processed to a byte-for-byte identical body, with no
file read: the conclusion holds for **every** filesystem, in particular the
empty one, so no referenced file needs to exist. -/
theorem claim_C7_escaped_only_identity (n content : List Char) (path : PathC)
    (hpath : path ≠ [])
    (hesc : ∀ m ∈ scanChapter content, m.live = none) :
    ∀ (fs : FS) (bsd : PathC),
      process_chapter fs bsd (.chapter n content path [])
        = .ok (.chapter n content path []) := by
  intro fs bsd
  simp [process_chapter, parentOf_of_ne_nil hpath, find_unescaped_eq_nil hesc,
    replaceSimports, processItems]

def c7Body : List Char := "/\x7b\x7b#bookimport ./ignored.txt@foo-bar\x7d\x7d".toList

/-- Witness for C7: the spec's scenario body, with `ignored.txt` absent from
the (empty) filesystem. -/
theorem claim_C7_witness :
    process_chapter [] [] (.chapter "e".toList c7Body ["e.md".toList] [])
      = .ok (.chapter "e".toList c7Body ["e.md".toList] []) :=
  claim_C7_escaped_only_identity "e".toList c7Body ["e.md".toList]
    (by decide) (by decide) [] []

/-- Claim C9: the walker recurses into every child with the same
`book_src_dir` (the processing of the deepest node is used exactly as the
hypothesis states it, with the same `fs` and `bsd`), and substitution in the
deepest node never changes any ancestor or sibling body: in a depth-3 tree
whose root, middle and sibling bodies contain no live directive, only the
deepest node's body is rewritten. -/
theorem claim_C9_walker_depth3 (fs : FS) (bsd : PathC)
    (n1 c1 n2 c2 ns cs : List Char) (p1 p2 ps : PathC)
    (deep deep' : BookItem)
    (h1 : find_unescaped_bookimports c1 = []) (hp1 : p1 ≠ [])
    (h2 : find_unescaped_bookimports c2 = []) (hp2 : p2 ≠ [])
    (hs : find_unescaped_bookimports cs = []) (hps : ps ≠ [])
    (hdeep : process_chapter fs bsd deep = .ok deep') :
    process_chapter fs bsd
      (.chapter n1 c1 p1
        [.chapter n2 c2 p2 [deep], .chapter ns cs ps []])
    = .ok (.chapter n1 c1 p1
        [.chapter n2 c2 p2 [deep'], .chapter ns cs ps []]) := by
  simp [process_chapter, processItems, parentOf_of_ne_nil hp1,
    parentOf_of_ne_nil hp2, parentOf_of_ne_nil hps, h1, h2, hs,
    replaceSimports, hdeep]

def c9FS : FS :=
  [(["a.txt".toList], .valid "@book start t\nX\n@book end t\n".toList)]

/-- Witness for C9: a concrete depth-3 tree where only the deepest node
holds a directive; it is substituted to `X` and every other body is
untouched. -/
theorem claim_C9_witness :
    process_chapter c9FS [] (.chapter "r".toList "root".toList ["r.md".toList]
      [.chapter "m".toList "mid".toList ["m.md".toList]
        [.chapter "d".toList "\x7b\x7b#bookimport a.txt@t \x7d\x7d".toList
          ["d.md".toList] []],
       .chapter "s".toList "sib".toList ["s.md".toList] []])
    = .ok (.chapter "r".toList "root".toList ["r.md".toList]
      [.chapter "m".toList "mid".toList ["m.md".toList]
        [.chapter "d".toList "X".toList ["d.md".toList] []],
       .chapter "s".toList "sib".toList ["s.md".toList] []]) :=
  claim_C9_walker_depth3 c9FS [] "r".toList "root".toList "m".toList
    "mid".toList "s".toList "sib".toList ["r.md".toList] ["m.md".toList]
    ["s.md".toList]
    (.chapter "d".toList "\x7b\x7b#bookimport a.txt@t \x7d\x7d".toList ["d.md".toList] [])
    (.chapter "d".toList "X".toList ["d.md".toList] [])
    (by decide) (by decide) (by decide) (by decide) (by decide) (by decide)
    rfl

/-! ## Claim C2: a file without an end marker makes extraction panic -/

/-- Does `@book\s+end\s+<tag>` match anywhere in `l` (at any suffix)? -/
def hasEndMarkerIn (tag : List Char) : List Char → Bool
  | [] => endMarkerAt tag []
  | l@(_ :: rest) => endMarkerAt tag l || hasEndMarkerIn tag rest

theorem hasEndMarkerIn_of_suffix {tag l l' : List Char} (hs : l' <:+ l)
    (hm : endMarkerAt tag l' = true) : hasEndMarkerIn tag l = true := by
  obtain ⟨u, rfl⟩ := hs
  induction u with
  | nil =>
    cases l' with
    | nil => simpa [hasEndMarkerIn] using hm
    | cons c r => simp [hasEndMarkerIn, hm]
  | cons c u ih => simp [hasEndMarkerIn, ih]

theorem dropLit_suffix {p l r : List Char} (h : dropLit p l = some r) :
    r <:+ l := by
  rw [dropLit_eq_some h]; exact List.suffix_append p r

theorem dropWhile_suffix (p : Char → Bool) (l : List Char) :
    l.dropWhile p <:+ l := by
  induction l with
  | nil => simp
  | cons c rest ih =>
    rw [List.dropWhile_cons]
    split
    · exact ih.trans (List.suffix_cons c rest)
    · exact List.suffix_refl _

theorem skipToNl_suffix {l r : List Char} (h : skipToNl l = some r) :
    r <:+ l := by
  induction l with
  | nil => simp [skipToNl] at h
  | cons c rest ih =>
    rw [skipToNl] at h
    split at h
    · cases h; exact List.suffix_cons _ _
    · exact (ih h).trans (List.suffix_cons c rest)

theorem endSearch_marker {tag l : List Char} (h : endSearch tag l = true) :
    ∃ l', l' <:+ l ∧ endMarkerAt tag l' = true := by
  induction l with
  | nil => simp [endSearch] at h
  | cons c rest ih =>
    rw [endSearch] at h
    split at h
    · exact ⟨c :: rest, List.suffix_refl _, by assumption⟩
    · split at h
      · simp at h
      · obtain ⟨l', hs, hm⟩ := ih h
        exact ⟨l', hs.trans (List.suffix_cons c rest), hm⟩

theorem lastViable_marker {tag l : List Char} {n : Nat}
    (h : lastViable tag l = some n) :
    ∃ l', l' <:+ l ∧ endMarkerAt tag l' = true := by
  induction l generalizing n with
  | nil => simp [lastViable] at h
  | cons c rest ih =>
    rw [lastViable] at h
    split at h
    case h_1 m hm =>
      obtain ⟨l', hs, hmk⟩ := ih hm
      exact ⟨l', hs.trans (List.suffix_cons c rest), hmk⟩
    case h_2 =>
      split at h
      case isTrue hc =>
        obtain ⟨l', hs, hmk⟩ := endSearch_marker hc.2
        exact ⟨l', hs.trans (List.suffix_cons c rest), hmk⟩
      case isFalse => simp at h

theorem extractAt_marker {tag l c : List Char}
    (h : extractAt tag l = some c) :
    ∃ l', l' <:+ l ∧ endMarkerAt tag l' = true := by
  unfold extractAt at h
  split at h
  · simp at h
  next r1 h1 =>
    split at h
    · simp at h
    next =>
      split at h
      · simp at h
      next r2 h2 =>
        split at h
        · simp at h
        next =>
          split at h
          · simp at h
          next r3 h3 =>
            split at h
            · simp at h
            next r4 h4 =>
              split at h
              · simp at h
              next n h5 =>
                obtain ⟨l', hs, hm⟩ := lastViable_marker h5
                have s4 : r4 <:+ l :=
                  ((skipToNl_suffix h4).trans
                    ((dropLit_suffix h3).trans
                      ((dropWhile_suffix isWs r2).trans
                        ((dropLit_suffix h2).trans
                          ((dropWhile_suffix isWs r1).trans
                            (dropLit_suffix h1))))))
                exact ⟨l', hs.trans s4, hm⟩

theorem bookCaptures_eq_none {tag l : List Char}
    (h : hasEndMarkerIn tag l = false) : bookCaptures tag l = none := by
  induction l with
  | nil =>
    rw [bookCaptures]
    cases he : extractAt tag [] with
    | none => rfl
    | some c =>
      obtain ⟨l', hs, hm⟩ := extractAt_marker he
      rw [List.suffix_nil.mp hs] at hm
      rw [hasEndMarkerIn] at h
      rw [hm] at h
      cases h
  | cons c rest ih =>
    rw [hasEndMarkerIn, Bool.or_eq_false_iff] at h
    rw [bookCaptures]
    cases he : extractAt tag (c :: rest) with
    | none => exact ih h.2
    | some v =>
      obtain ⟨l', hs, hm⟩ := extractAt_marker he
      have hC : hasEndMarkerIn tag (c :: rest) = true :=
        hasEndMarkerIn_of_suffix hs hm
      rw [hasEndMarkerIn] at hC
      simp [h.1, h.2] at hC

/-- Claim C2 (amended): when the referenced file contains no end marker for
the tag, `read_content_between_tags` panics at the
`captures(..).unwrap()` — it does not return a `TagError` (the only
declared variant, `MissingStartTag`, is never constructed; `MissingEndTag`
and `InvertedTagOrder` do not exist in the code). -/
theorem claim_C2_missing_end_panics (si : BookImport) (chapter_dir : PathC)
    (fs : FS) (content : List Char)
    (hfs : fs.lookup (chapter_dir ++ [si.file]) = some (.valid content))
    (hend : hasEndMarkerIn si.tag content = false) :
    read_content_between_tags si chapter_dir fs = .error .capturesUnwrap := by
  unfold read_content_between_tags
  dsimp only []
  rw [hfs]
  dsimp only []
  rw [bookCaptures_eq_none hend]

def c2Simport : BookImport :=
  ⟨"a.txt".toList, "\x7b\x7b#bookimport a.txt@t \x7d\x7d".toList, "t".toList, 0, 24⟩

def c2FS : FS :=
  [(["a.txt".toList], .valid "@book start t\nA\nB".toList)]

/-- Witness for C2: a concrete file holding a start marker but no end
marker; extraction panics. -/
theorem claim_C2_witness :
    read_content_between_tags c2Simport [] c2FS = .error .capturesUnwrap :=
  claim_C2_missing_end_panics c2Simport [] c2FS
    "@book start t\nA\nB".toList (by decide) (by decide)

def c2xFS : FS :=
  [(["b.txt".toList], .valid "X\n@book end t\n".toList)]

def c2xSimport : BookImport :=
  ⟨"b.txt".toList, "\x7b\x7b#bookimport b.txt@t \x7d\x7d".toList, "t".toList, 0, 24⟩

/-- Counterexample to C2 as stated: with the start marker absent (only an
end marker present), extraction does not return any `TagError` value — it
panics (`captures(..).unwrap()` on a failed match), so "returns the
corresponding error ... does not panic" is false of the code. -/
theorem claim_C2_counterexample :
    read_content_between_tags c2xSimport [] c2xFS
      = .error .capturesUnwrap := rfl

/-! ## Claims C3 and C6: what the extraction regex matches on a structured
file

`joinLines` rebuilds a file from its lines with `'\n'` separators;
`startMarkerLine tag ext` is the line `@book start <tag><ext>` and
`endMarkerLine tag ext` the line `@book end <tag><ext>` (for `ext = []`
these are exact marker lines; a non-empty `ext` models trailing text, in
particular the continuation of a longer tag name of which `tag` is a
prefix). -/

def joinLines : List (List Char) → List Char
  | [] => []
  | l :: ls =>
    l ++ match ls with
         | [] => []
         | _ :: _ => '\n' :: joinLines ls

def startMarkerLine (tag ext : List Char) : List Char :=
  '@' :: 'b' :: 'o' :: 'o' :: 'k' :: ' ' :: 's' :: 't' :: 'a' :: 'r' :: 't'
    :: ' ' :: (tag ++ ext)

def endMarkerLine (tag ext : List Char) : List Char :=
  '@' :: 'b' :: 'o' :: 'o' :: 'k' :: ' ' :: 'e' :: 'n' :: 'd' :: ' '
    :: (tag ++ ext)

theorem joinLines_cons_ne (l : List Char) {ls : List (List Char)}
    (h : ls ≠ []) : joinLines (l :: ls) = l ++ '\n' :: joinLines ls := by
  cases ls with
  | nil => exact absurd rfl h
  | cons b t => rfl

theorem mem_joinLines {c : Char} : ∀ {ls : List (List Char)},
    c ∈ joinLines ls → c = '\n' ∨ ∃ l ∈ ls, c ∈ l := by
  intro ls
  induction ls with
  | nil => intro h; simp [joinLines] at h
  | cons l ls ih =>
    intro h
    cases ls with
    | nil =>
      refine Or.inr ⟨l, by simp, ?_⟩
      simpa [joinLines] using h
    | cons b t =>
      rw [joinLines_cons_ne l (by simp)] at h
      rcases List.mem_append.mp h with hl | hr
      · exact Or.inr ⟨l, by simp, hl⟩
      · rcases List.mem_cons.mp hr with rfl | hr'
        · exact Or.inl rfl
        · rcases ih hr' with hnl | ⟨l', hl', hc⟩
          · exact Or.inl hnl
          · exact Or.inr ⟨l', by simp [hl'], hc⟩

theorem nlChar_isWs {c : Char} (h : nlChar c = true) : isWs c = true := by
  unfold nlChar at h
  rcases Bool.or_eq_true_iff.mp h with h' | h' <;>
    rw [decide_eq_true_iff.mp h'] <;> rfl

theorem tagChar_not_ws {c : Char} (h : isTagChar c = true) : isWs c = false := by
  cases hw : isWs c
  · rfl
  · exfalso
    unfold isWs at hw
    simp only [Bool.or_eq_true_iff, decide_eq_true_iff] at hw
    rcases hw with ((((rfl | rfl) | rfl) | rfl) | rfl) | rfl <;>
      exact absurd h (by decide)

theorem tagChar_not_nl {c : Char} (h : isTagChar c = true) : nlChar c = false := by
  cases hn : nlChar c
  · rfl
  · exact absurd (nlChar_isWs hn) (by simp [tagChar_not_ws h])

/-- A single-space whitespace run: `\s+` before a literal starting with a
non-whitespace character consumes exactly the one space. -/
theorem wsRun_single {L : List Char}
    (hL : ∀ t0, L.head? = some t0 → isWs t0 = false) :
    List.takeWhile isWs (' ' :: L) = [' ']
    ∧ List.dropWhile isWs (' ' :: L) = L := by
  cases L with
  | nil => exact ⟨rfl, rfl⟩
  | cons a L' =>
    have ha := hL a rfl
    have hsp : isWs ' ' = true := rfl
    have ha' : ¬ isWs a = true := by simp [ha]
    exact ⟨by rw [List.takeWhile_cons, if_pos hsp, List.takeWhile_cons, if_neg ha'],
           by rw [List.dropWhile_cons, if_pos hsp, List.dropWhile_cons, if_neg ha']⟩

theorem dropLit_book (r : List Char) :
    dropLit ("@book".toList) ('@' :: 'b' :: 'o' :: 'o' :: 'k' :: r) = some r := rfl

theorem dropLit_start (r : List Char) :
    dropLit ("start".toList) ('s' :: 't' :: 'a' :: 'r' :: 't' :: r) = some r := rfl

theorem dropLit_endKw (r : List Char) :
    dropLit ("end".toList) ('e' :: 'n' :: 'd' :: r) = some r := rfl

theorem extractAt_none_of_head {tag : List Char} {c : Char} {l : List Char}
    (hc : c ≠ '@') : extractAt tag (c :: l) = none := by
  unfold extractAt
  have hb : dropLit ("@book".toList) (c :: l) = none := by
    show dropLit ('@' :: "book".toList) (c :: l) = none
    unfold dropLit
    simp [Ne.symm hc]
  rw [hb]

theorem endMarkerAt_false_of_head {tag : List Char} {c : Char} {l : List Char}
    (hc : c ≠ '@') : endMarkerAt tag (c :: l) = false := by
  unfold endMarkerAt
  have hb : dropLit ("@book".toList) (c :: l) = none := by
    show dropLit ('@' :: "book".toList) (c :: l) = none
    unfold dropLit
    simp [Ne.symm hc]
  rw [hb]

/-- The lazy search for an end marker dies on a line without `@` followed by
nothing or a newline: nothing in the line can start the marker and the
search cannot cross the newline. -/
theorem endSearch_dead {tag : List Char} : ∀ (p tail : List Char),
    (∀ c ∈ p, c ≠ '@') → (tail = [] ∨ ∃ r, tail = '\n' :: r) →
    endSearch tag (p ++ tail) = false := by
  intro p
  induction p with
  | nil =>
    intro tail _ htail
    rcases htail with rfl | ⟨r, rfl⟩
    · rfl
    · rw [List.nil_append, endSearch,
        endMarkerAt_false_of_head (by decide : ('\n' : Char) ≠ '@')]
      simp
  | cons c p' ih =>
    intro tail hp htail
    rw [List.cons_append, endSearch,
      endMarkerAt_false_of_head (hp c (by simp))]
    by_cases hc : c = '\n'
    · simp [hc]
    · simp [hc, ih tail (fun d hd => hp d (by simp [hd])) htail]

/-- No content-closing newline can be found inside an `@`-free region whose
tail is empty or starts at a newline with nothing viable beyond. -/
theorem lastViable_dead {tag : List Char} : ∀ (p tail : List Char),
    (∀ c ∈ p, c ≠ '@') → (tail = [] ∨ ∃ r, tail = '\n' :: r) →
    lastViable tag tail = none →
    lastViable tag (p ++ tail) = none := by
  intro p
  induction p with
  | nil => intro tail _ _ h; simpa using h
  | cons c p' ih =>
    intro tail hp htail hnone
    rw [List.cons_append, lastViable,
      ih tail (fun d hd => hp d (by simp [hd])) htail hnone,
      endSearch_dead p' tail (fun d hd => hp d (by simp [hd])) htail]
    simp

/-- An `@`-free block of lines is dead for the end-marker search, both for
`endSearch` and for `lastViable`. -/
theorem post_block_dead (tag : List Char) : ∀ post : List (List Char),
    (∀ l ∈ post, ∀ c ∈ l, c ≠ '@') →
    endSearch tag (joinLines post) = false
    ∧ lastViable tag (joinLines post) = none := by
  intro post
  induction post with
  | nil => intro _; exact ⟨rfl, rfl⟩
  | cons p ps ih =>
    intro hp
    have hpl : ∀ c ∈ p, c ≠ '@' := hp p (by simp)
    have ihp : ∀ l ∈ ps, ∀ c ∈ l, c ≠ '@' :=
      fun l hl => hp l (List.mem_cons_of_mem _ hl)
    cases ps with
    | nil =>
      have h0 : joinLines [p] = p ++ [] := by simp [joinLines]
      rw [h0]
      exact ⟨endSearch_dead p [] hpl (Or.inl rfl),
        lastViable_dead p [] hpl (Or.inl rfl) rfl⟩
    | cons q qs =>
      obtain ⟨ihS, ihV⟩ := ih ihp
      rw [joinLines_cons_ne p (by simp)]
      have htail : ('\n' :: joinLines (q :: qs) : List Char) = []
          ∨ ∃ r, ('\n' :: joinLines (q :: qs) : List Char) = '\n' :: r :=
        Or.inr ⟨joinLines (q :: qs), rfl⟩
      refine ⟨endSearch_dead p _ hpl htail, ?_⟩
      refine lastViable_dead p _ hpl htail ?_
      rw [lastViable, ihV, ihS]
      simp

/-- The character list following a block's last line: nothing, or a newline
and the joined following lines. -/
def postPart (post : List (List Char)) : List Char :=
  match post with
  | [] => []
  | _ :: _ => '\n' :: joinLines post

theorem joinLines_cons_postPart (l : List Char) (post : List (List Char)) :
    joinLines (l :: post) = l ++ postPart post := by
  cases post with
  | nil => simp [joinLines, postPart]
  | cons q qs => rw [joinLines_cons_ne l (by simp)]; rfl

theorem postPart_dead (tag : List Char) (post : List (List Char))
    (hpost : ∀ l ∈ post, ∀ c ∈ l, c ≠ '@') :
    lastViable tag (postPart post) = none := by
  cases post with
  | nil => rfl
  | cons q qs =>
    obtain ⟨hS, hV⟩ := post_block_dead tag (q :: qs) hpost
    rw [postPart, lastViable, hV, hS]
    simp

theorem endLine_nl_free {tag ext : List Char}
    (htagc : ∀ c ∈ tag, isTagChar c = true)
    (hext : ∀ c ∈ ext, nlChar c = false) :
    ∀ c ∈ endMarkerLine tag ext, nlChar c = false := by
  intro c hc
  rw [endMarkerLine] at hc
  simp only [List.mem_cons, List.mem_append] at hc
  rcases hc with rfl | rfl | rfl | rfl | rfl | rfl | rfl | rfl | rfl | rfl
    | htg | hxt
  iterate 10 rfl
  · exact tagChar_not_nl (htagc c htg)
  · exact hext c hxt

theorem endMarkerAt_endLine (tag ext P : List Char) (htagne : tag ≠ [])
    (htagc : ∀ c ∈ tag, isTagChar c = true) :
    endMarkerAt tag (endMarkerLine tag ext ++ P) = true := by
  obtain ⟨t0, t', rfl⟩ : ∃ t0 t', tag = t0 :: t' := by
    cases tag with
    | nil => exact absurd rfl htagne
    | cons a b => exact ⟨a, b, rfl⟩
  have ht0 : isWs t0 = false := tagChar_not_ws (htagc t0 (by simp))
  have e1 : endMarkerLine (t0 :: t') ext ++ P
      = '@' :: 'b' :: 'o' :: 'o' :: 'k' ::
        (' ' :: ('e' :: 'n' :: 'd' :: (' ' :: ((t0 :: t') ++ (ext ++ P))))) := by
    rw [endMarkerLine]
    simp
  rw [e1]
  unfold endMarkerAt
  obtain ⟨ht1, hd1⟩ := wsRun_single
    (L := 'e' :: 'n' :: 'd' :: (' ' :: ((t0 :: t') ++ (ext ++ P))))
    (by intro x hx; cases hx; rfl)
  obtain ⟨ht2, hd2⟩ := wsRun_single (L := (t0 :: t') ++ (ext ++ P))
    (by intro x hx; cases hx; exact ht0)
  have hstep : dropLit (t0 :: t') (t0 :: (t' ++ (ext ++ P)))
      = some (ext ++ P) := dropLit_self_append (t0 :: t') (ext ++ P)
  simp only [dropLit_book, ht1, hd1, dropLit_endKw, ht2, hd2]
  simp [hstep]

theorem endSearch_endLine (tag ext P : List Char) (htagne : tag ≠ [])
    (htagc : ∀ c ∈ tag, isTagChar c = true) :
    endSearch tag (endMarkerLine tag ext ++ P) = true := by
  have h := endMarkerAt_endLine tag ext P htagne htagc
  rw [show endMarkerLine tag ext ++ P
      = '@' :: (('b' :: 'o' :: 'o' :: 'k' :: ' ' :: 'e' :: 'n' :: 'd' :: ' '
        :: (tag ++ ext)) ++ P) from by rw [endMarkerLine]; simp,
    endSearch]
  rw [show ('@' :: (('b' :: 'o' :: 'o' :: 'k' :: ' ' :: 'e' :: 'n' :: 'd'
      :: ' ' :: (tag ++ ext)) ++ P))
      = endMarkerLine tag ext ++ P from by rw [endMarkerLine]; simp, h]
  simp

theorem lastViable_nlfree_append {tag : List Char} : ∀ (E P : List Char),
    (∀ c ∈ E, nlChar c = false) → lastViable tag P = none →
    lastViable tag (E ++ P) = none := by
  intro E
  induction E with
  | nil => intro P _ h; simpa using h
  | cons c E' ih =>
    intro P hE hP
    rw [List.cons_append, lastViable, ih P (fun d hd => hE d (by simp [hd])) hP,
      hE c (by simp)]
    simp

/-- The greedy content group on the structured tail: the newline closing the
content is the one right before the (last) end-marker line. -/
theorem lastViable_structured (tag ext M P : List Char) (htagne : tag ≠ [])
    (htagc : ∀ c ∈ tag, isTagChar c = true)
    (hext : ∀ c ∈ ext, nlChar c = false)
    (hdeadP : lastViable tag P = none) :
    lastViable tag (M ++ '\n' :: (endMarkerLine tag ext ++ P))
      = some M.length := by
  induction M with
  | nil =>
    rw [List.nil_append, lastViable,
      lastViable_nlfree_append _ P (endLine_nl_free htagc hext) hdeadP,
      endSearch_endLine tag ext P htagne htagc]
    simp [nlChar]
  | cons m M' ih =>
    rw [List.cons_append, lastViable, ih]
    simp

theorem skipToNl_past {ext r : List Char}
    (h : ∀ c ∈ ext, nlChar c = false) :
    skipToNl (ext ++ '\n' :: r) = some r := by
  induction ext with
  | nil => rfl
  | cons c e' ih =>
    rw [List.cons_append, skipToNl, h c (by simp)]
    exact ih fun d hd => h d (by simp [hd])

/-- The whole extraction pattern at the start-marker line: the capture is
whatever the greedy content group selects in the text after the line's
newline. -/
theorem extractAt_start (tag extS rest' : List Char) (htagne : tag ≠ [])
    (htagc : ∀ c ∈ tag, isTagChar c = true)
    (hextS : ∀ c ∈ extS, nlChar c = false) :
    extractAt tag (startMarkerLine tag extS ++ '\n' :: rest')
      = (lastViable tag rest').map (fun n => rest'.take n) := by
  obtain ⟨t0, t', rfl⟩ : ∃ t0 t', tag = t0 :: t' := by
    cases tag with
    | nil => exact absurd rfl htagne
    | cons a b => exact ⟨a, b, rfl⟩
  have ht0 : isWs t0 = false := tagChar_not_ws (htagc t0 (by simp))
  have e1 : startMarkerLine (t0 :: t') extS ++ '\n' :: rest'
      = '@' :: 'b' :: 'o' :: 'o' :: 'k' ::
        (' ' :: ('s' :: 't' :: 'a' :: 'r' :: 't' ::
          (' ' :: ((t0 :: t') ++ (extS ++ '\n' :: rest'))))) := by
    rw [startMarkerLine]
    simp
  rw [e1]
  unfold extractAt
  obtain ⟨ht1, hd1⟩ := wsRun_single
    (L := 's' :: 't' :: 'a' :: 'r' :: 't' ::
      (' ' :: ((t0 :: t') ++ (extS ++ '\n' :: rest'))))
    (by intro x hx; cases hx; rfl)
  obtain ⟨ht2, hd2⟩ := wsRun_single (L := (t0 :: t') ++ (extS ++ '\n' :: rest'))
    (by intro x hx; cases hx; exact ht0)
  simp only [dropLit_book, ht1, hd1, dropLit_start, ht2, hd2,
    dropLit_self_append, skipToNl_past hextS, List.length_cons,
    List.length_nil]
  simp only [Nat.zero_add, if_neg (by omega : ¬ (1 : Nat) = 0)]
  cases lastViable (t0 :: t') rest' <;> rfl

/-- `captures` skips any region without `@`: the pattern starts with the
literal `@book`, so no match can begin inside such a region. -/
theorem bookCaptures_skip {tag : List Char} : ∀ (u l : List Char),
    (∀ c ∈ u, c ≠ '@') → bookCaptures tag (u ++ l) = bookCaptures tag l := by
  intro u
  induction u with
  | nil => intro l _; rfl
  | cons c u' ih =>
    intro l hu
    rw [List.cons_append, bookCaptures,
      extractAt_none_of_head (hu c (by simp))]
    exact ih l fun d hd => hu d (by simp [hd])

theorem joinLines_append_ne : ∀ (xs ys : List (List Char)), xs ≠ [] →
    ys ≠ [] → joinLines (xs ++ ys) = joinLines xs ++ '\n' :: joinLines ys := by
  intro xs
  induction xs with
  | nil => intro ys h; exact absurd rfl h
  | cons x xs' ih =>
    intro ys _ hys
    cases xs' with
    | nil =>
      rw [List.cons_append, List.nil_append, joinLines_cons_ne x hys]
      simp [joinLines]
    | cons b t =>
      rw [List.cons_append, joinLines_cons_ne x (by simp),
        joinLines_cons_ne x (by simp), ih ys (by simp) hys]
      simp

/-- Leftmost-first `captures` on a structured file: `pre` lines without `@`,
the start-marker line for `tag` (with arbitrary non-newline trailing text
`extS`), at least one content line, the end-marker line (with arbitrary
non-newline trailing text `extE`), and `post` lines without `@`.  The
capture is exactly the joined content lines — whatever they contain,
including further end-marker lines (the greedy content group uses the
**last** end marker). -/
theorem bookCaptures_structured (tag extS extE : List Char)
    (pre mid post : List (List Char))
    (htagne : tag ≠ []) (htagc : ∀ c ∈ tag, isTagChar c = true)
    (hextS : ∀ c ∈ extS, nlChar c = false)
    (hextE : ∀ c ∈ extE, nlChar c = false)
    (hpre : ∀ l ∈ pre, ∀ c ∈ l, c ≠ '@')
    (hmid : mid ≠ [])
    (hpost : ∀ l ∈ post, ∀ c ∈ l, c ≠ '@') :
    bookCaptures tag (joinLines (pre ++ startMarkerLine tag extS ::
        (mid ++ endMarkerLine tag extE :: post)))
      = some (joinLines mid) := by
  have hrest : joinLines (mid ++ endMarkerLine tag extE :: post)
      = joinLines mid ++ '\n' ::
        (endMarkerLine tag extE ++ postPart post) := by
    rw [joinLines_append_ne mid _ hmid (by simp),
      joinLines_cons_postPart]
  have hcore : bookCaptures tag (joinLines (startMarkerLine tag extS ::
      (mid ++ endMarkerLine tag extE :: post))) = some (joinLines mid) := by
    rw [joinLines_cons_ne _ (by simp), hrest]
    have hshape : startMarkerLine tag extS ++ '\n' ::
        (joinLines mid ++ '\n' :: (endMarkerLine tag extE ++ postPart post))
        = '@' :: ('b' :: 'o' :: 'o' :: 'k' :: ' ' :: 's' :: 't' :: 'a' :: 'r'
          :: 't' :: ' ' :: (tag ++ extS) ++ '\n' ::
          (joinLines mid ++ '\n' ::
            (endMarkerLine tag extE ++ postPart post))) := by
      rw [startMarkerLine]; simp
    rw [hshape, bookCaptures, ← hshape,
      extractAt_start tag extS _ htagne htagc hextS,
      lastViable_structured tag extE (joinLines mid) (postPart post) htagne
        htagc hextE (postPart_dead tag post hpost)]
    simp [List.take_left]
  cases pre with
  | nil => simpa using hcore
  | cons p ps =>
    rw [joinLines_append_ne (p :: ps) _ (by simp) (by simp)]
    have hchars : ∀ c ∈ joinLines (p :: ps) ++ ['\n'], c ≠ '@' := by
      intro c hc
      rcases List.mem_append.mp hc with hj | hn
      · rcases mem_joinLines hj with rfl | ⟨l, hl, hcl⟩
        · decide
        · exact hpre l hl c hcl
      · rcases List.mem_singleton.mp hn with rfl
        decide
    calc bookCaptures tag (joinLines (p :: ps) ++ '\n' ::
          joinLines (startMarkerLine tag extS ::
            (mid ++ endMarkerLine tag extE :: post)))
        = bookCaptures tag ((joinLines (p :: ps) ++ ['\n']) ++
            joinLines (startMarkerLine tag extS ::
              (mid ++ endMarkerLine tag extE :: post))) := by
          rw [List.append_assoc]; rfl
      _ = some (joinLines mid) := by
          rw [bookCaptures_skip _ _ hchars]; exact hcore

/-- Claim C3 (amended): on a file made of `@`-free lines, then the exact
start-marker line, then at least one content line, then the exact end-marker
line, then `@`-free lines, extraction returns exactly the content lines
joined by `'\n'`, where the end-marker line used is the **last** line of the
file matching `@book end <tag>`: the content lines `mid` are arbitrary and
may themselves contain earlier end-marker lines, which are then part of the
returned content (greedy content group), not extraction boundaries. -/
theorem claim_C3_last_end_marker (si : BookImport) (chapter_dir : PathC)
    (fs : FS) (pre mid post : List (List Char))
    (htagne : si.tag ≠ []) (htagc : ∀ c ∈ si.tag, isTagChar c = true)
    (hpre : ∀ l ∈ pre, ∀ c ∈ l, c ≠ '@')
    (hmid : mid ≠ [])
    (hpost : ∀ l ∈ post, ∀ c ∈ l, c ≠ '@')
    (hfs : fs.lookup (chapter_dir ++ [si.file]) = some (.valid (joinLines
      (pre ++ startMarkerLine si.tag [] ::
        (mid ++ endMarkerLine si.tag [] :: post))))) :
    read_content_between_tags si chapter_dir fs
      = .ok (.ok (joinLines mid)) := by
  unfold read_content_between_tags
  dsimp only []
  rw [hfs]
  dsimp only []
  rw [bookCaptures_structured si.tag [] [] pre mid post htagne htagc
    (by simp) (by simp) hpre hmid hpost]

def c3Simport : BookImport :=
  ⟨"a.txt".toList, "\x7b\x7b#bookimport a.txt@t \x7d\x7d".toList, "t".toList, 0, 24⟩

def c3FS : FS :=
  [(["a.txt".toList], .valid (joinLines
    (["pre".toList] ++ startMarkerLine "t".toList [] ::
      (["A".toList, "@book end t".toList, "B".toList] ++
        endMarkerLine "t".toList [] :: ["post".toList]))))]

/-- Witness for C3: a file whose content region itself contains an earlier
`@book end t` line; the returned content runs to the last end marker. -/
theorem claim_C3_witness :
    read_content_between_tags c3Simport [] c3FS
      = .ok (.ok (joinLines
          ["A".toList, "@book end t".toList, "B".toList])) :=
  claim_C3_last_end_marker c3Simport [] c3FS ["pre".toList]
    ["A".toList, "@book end t".toList, "B".toList] ["post".toList]
    (by decide) (by decide) (by decide) (by decide) (by decide) rfl

def c3xSimport : BookImport :=
  ⟨"c.txt".toList, "\x7b\x7b#bookimport c.txt@t \x7d\x7d".toList, "t".toList, 0, 24⟩

def c3xFS : FS :=
  [(["c.txt".toList],
    .valid "@book start t\nA\n@book end t\nB\n@book end t\n".toList)]

/-- Counterexample to C3 as stated: with the start marker on line 0 and the
FIRST `@book end t` on line 2, the claim requires the content to be exactly
line 1, `A`; the code returns the text up to the **last** end marker
instead. -/
theorem claim_C3_counterexample :
    read_content_between_tags c3xSimport [] c3xFS
      = .ok (.ok "A\n@book end t\nB".toList)
    ∧ "A\n@book end t\nB".toList ≠ "A".toList :=
  ⟨rfl, by decide⟩

/-- Claim C6 (amended): marker-line tag matching is by prefix, not by
delimited token: for a tag `t` and any non-empty tag-character continuation
`ext`, a file containing only the marker lines of the longer tag `t ++ ext`
is successfully matched by an extraction for `t`, returning the region of
the longer tag. -/
theorem claim_C6_tag_prefix_matches (si : BookImport) (chapter_dir : PathC)
    (fs : FS) (ext : List Char) (pre mid post : List (List Char))
    (htagne : si.tag ≠ []) (htagc : ∀ c ∈ si.tag, isTagChar c = true)
    (_hextne : ext ≠ []) (hextc : ∀ c ∈ ext, isTagChar c = true)
    (hpre : ∀ l ∈ pre, ∀ c ∈ l, c ≠ '@')
    (hmid : mid ≠ [])
    (hpost : ∀ l ∈ post, ∀ c ∈ l, c ≠ '@')
    (hfs : fs.lookup (chapter_dir ++ [si.file]) = some (.valid (joinLines
      (pre ++ startMarkerLine si.tag ext ::
        (mid ++ endMarkerLine si.tag ext :: post))))) :
    read_content_between_tags si chapter_dir fs
      = .ok (.ok (joinLines mid)) := by
  unfold read_content_between_tags
  dsimp only []
  rw [hfs]
  dsimp only []
  rw [bookCaptures_structured si.tag ext ext pre mid post htagne htagc
    (fun c hc => tagChar_not_nl (hextc c hc))
    (fun c hc => tagChar_not_nl (hextc c hc)) hpre hmid hpost]

def c6Simport : BookImport :=
  ⟨"s.css".toList, "\x7b\x7b#bookimport s.css@foo \x7d\x7d".toList, "foo".toList, 0, 26⟩

def c6FS : FS :=
  [(["s.css".toList], .valid (joinLines
    (startMarkerLine "foo".toList "-bar".toList ::
      (["Y".toList] ++ endMarkerLine "foo".toList "-bar".toList :: []))))]

/-- Witness for C6: searching tag `foo` in a file holding only the markers
of `foo-bar` succeeds and returns `foo-bar`'s region. -/
theorem claim_C6_witness :
    read_content_between_tags c6Simport [] c6FS
      = .ok (.ok (joinLines ["Y".toList])) :=
  claim_C6_tag_prefix_matches c6Simport [] c6FS "-bar".toList []
    ["Y".toList] [] (by decide) (by decide) (by decide) (by decide)
    (by decide) (by decide) (by decide) rfl

def c6xSimport : BookImport :=
  ⟨"p.css".toList, "\x7b\x7b#bookimport p.css@foo \x7d\x7d".toList, "foo".toList, 0, 26⟩

def c6xFS : FS :=
  [(["p.css".toList],
    .valid "@book start foo-bar\nX\n@book end foo-bar\n".toList)]

/-- Counterexample to C6 as stated: the claim says extraction for `foo`
never matches the marker lines of `foo-bar`; on a file containing only
`foo-bar` markers, extraction for `foo` succeeds (it would have to fail —
here, panic — were tag matching exact-token). -/
theorem claim_C6_counterexample :
    read_content_between_tags c6xSimport [] c6xFS
      = .ok (.ok "X".toList) := rfl

/-! ### Claim C8: scanner span invariants -/

theorem matchEscapedAt_pos {l : List Char} {len : Nat}
    (h : matchEscapedAt l = some len) : 1 ≤ len := by
  unfold matchEscapedAt at h
  split at h
  · split at h
    · rcases Option.map_eq_some'.mp h with ⟨k, _, rfl⟩
      omega
    · simp at h
  · simp at h

theorem matchLiveAt_pos {l : List Char} {len : Nat} {f t : List Char}
    (h : matchLiveAt l = some (len, f, t)) : 1 ≤ len := by
  unfold matchLiveAt at h
  split at h
  · simp at h
  · split at h
    · simp at h
    · dsimp only [] at h
      split at h
      · split at h
        · split at h
          · split at h
            · simp at h
            · simp only [Option.some.injEq, Prod.mk.injEq] at h
              omega
          · simp at h
        · simp at h
      · simp at h

theorem tryMatchAt_pos {l : List Char} {len : Nat}
    {live : Option (List Char × List Char)}
    (h : tryMatchAt l = some (len, live)) : 1 ≤ len := by
  unfold tryMatchAt at h
  split at h
  case h_1 len' heq =>
    obtain ⟨rfl, _⟩ : len' = len ∧ (none : Option (List Char × List Char)) = live := by
      simpa using h
    exact matchEscapedAt_pos heq
  case h_2 =>
    split at h
    case h_1 p len' f t heq =>
      obtain ⟨rfl, _⟩ : len' = len ∧ some (f, t) = live := by simpa using h
      exact matchLiveAt_pos heq
    case h_2 => simp at h

/-- Every match the scan loop emits starts at or after the current scan
position, has positive length, and the emitted spans are pairwise
non-overlapping in emission order. -/
theorem scanLoop_spans (fuel : Nat) : ∀ (pos : Nat) (l : List Char),
    (∀ m ∈ scanLoop fuel pos l, pos ≤ m.start ∧ m.start < m.start + m.len)
    ∧ List.Pairwise (fun a b : RawMatch => a.start + a.len ≤ b.start)
        (scanLoop fuel pos l) := by
  induction fuel with
  | zero => intro pos l; simp [scanLoop]
  | succ fuel ih =>
    intro pos l
    cases l with
    | nil => simp [scanLoop]
    | cons c rest =>
      rw [scanLoop]
      cases htry : tryMatchAt (c :: rest) with
      | none =>
        refine ⟨fun m hm => ?_, (ih (pos + 1) rest).2⟩
        have := (ih (pos + 1) rest).1 m hm
        omega
      | some p =>
        obtain ⟨len, live⟩ := p
        have hlen : 1 ≤ len := tryMatchAt_pos htry
        have ihd := ih (pos + len) ((c :: rest).drop len)
        constructor
        · intro m hm
          rcases List.mem_cons.mp hm with rfl | hm'
          · exact ⟨le_refl _, by dsimp; omega⟩
          · have := ihd.1 m hm'
            omega
        · exact List.pairwise_cons.mpr
            ⟨fun m hm => by have := ihd.1 m hm; dsimp; omega, ihd.2⟩

theorem pairwise_filterMap_of_pairwise {α β : Type} (f : α → Option β)
    (R : α → α → Prop) (S : β → β → Prop)
    (h : ∀ a b, R a b → ∀ c, f a = some c → ∀ d, f b = some d → S c d) :
    ∀ l : List α, l.Pairwise R → (l.filterMap f).Pairwise S := by
  intro l hl
  induction l with
  | nil => simp
  | cons a l ih =>
    rw [List.filterMap_cons]
    rcases List.pairwise_cons.mp hl with ⟨ha, hl'⟩
    cases hfa : f a with
    | none => exact ih hl'
    | some c =>
      refine List.pairwise_cons.mpr ⟨?_, ih hl'⟩
      intro d hd
      obtain ⟨b, hb, hfb⟩ := List.mem_filterMap.mp hd
      exact h a b (ha b hb) c hfa d hfb

/-- The span fields a produced `BookImport` inherits from its raw match. -/
theorem find_unescaped_span {content : List Char} {s : BookImport}
    (h : s ∈ find_unescaped_bookimports content) :
    ∃ m ∈ scanChapter content,
      s.start = m.start ∧ s.endIdx = m.start + m.len := by
  unfold find_unescaped_bookimports at h
  obtain ⟨m, hm, hf⟩ := List.mem_filterMap.mp h
  refine ⟨m, hm, ?_⟩
  dsimp only [] at hf
  split at hf
  · simp at hf
  · split at hf
    · cases hf; exact ⟨rfl, rfl⟩
    · simp at hf

/-- Claim C8: the scanner returns the unescaped directives with pairwise
non-overlapping spans in ascending order: each span ends no later than the
next begins, and every span is non-empty (so starts are strictly
ascending). -/
theorem claim_C8_spans_ascending (content : List Char) :
    List.Pairwise (fun a b : BookImport => a.endIdx ≤ b.start)
      (find_unescaped_bookimports content)
    ∧ ∀ s ∈ find_unescaped_bookimports content, s.start < s.endIdx := by
  have base := scanLoop_spans content.length 0 content
  constructor
  · unfold find_unescaped_bookimports
    refine pairwise_filterMap_of_pairwise _
      (fun a b : RawMatch => a.start + a.len ≤ b.start) _ ?_ _ base.2
    intro a b hR c hc d hd
    have hc' : c.endIdx = a.start + a.len ∧ c.start = a.start := by
      dsimp only [] at hc
      split at hc
      · simp at hc
      · split at hc
        · cases hc; exact ⟨rfl, rfl⟩
        · simp at hc
    have hd' : d.start = b.start := by
      dsimp only [] at hd
      split at hd
      · simp at hd
      · split at hd
        · cases hd; rfl
        · simp at hd
    rw [hc'.1, hd']
    exact hR
  · intro s hs
    obtain ⟨m, hm, h1, h2⟩ := find_unescaped_span hs
    have := base.1 m hm
    omega

def c8Body : List Char :=
  "a \x7b\x7b#bookimport x.txt@t \x7d\x7d b \x7b\x7b#bookimport y.txt@u \x7d\x7d".toList

def c8Simport : BookImport :=
  ⟨"x.txt".toList, "\x7b\x7b#bookimport x.txt@t \x7d\x7d".toList, "t".toList, 2, 26⟩

/-- Witness for C8 at a concrete two-directive body. -/
theorem claim_C8_witness :
    List.Pairwise (fun a b : BookImport => a.endIdx ≤ b.start)
      (find_unescaped_bookimports c8Body)
    ∧ c8Simport.start < c8Simport.endIdx :=
  ⟨(claim_C8_spans_ascending c8Body).1,
   (claim_C8_spans_ascending c8Body).2 c8Simport (by decide)⟩

/-! ### Claim C5: escape classification -/

def c5WsBody : List Char := "/\x7b\x7b #bookimport a.txt@t \x7d\x7d".toList

/-- Counterexample to C5 as stated: the escape marker followed by
`{{ #bookimport ... }}` — the directive form with whitespace between `{{`
and the keyword — is NOT classified as escaped: the scanner returns it as a
live directive (span starting at the `{{`, the `/` ignored), because the
escaped regex alternative demands `#` immediately after `{{`. -/
theorem claim_C5_counterexample :
    find_unescaped_bookimports c5WsBody
      = [⟨"a.txt".toList, "\x7b\x7b #bookimport a.txt@t \x7d\x7d".toList, "t".toList,
          1, 26⟩] := rfl

def c5SwallowBody : List Char :=
  "/\x7b\x7b#bookimport a.txt@t\x7d\x7d \x7b\x7b#bookimport b.txt@u \x7d\x7d".toList

/-- Claim C5 (amended): (1) the escaped alternative requires `#` directly
after the braces — with whitespace there it does not match, so such an
occurrence is scanned live; (2) the escaped alternative is greedy up to the
last `}}` of the line, so an escaped directive swallows a live directive
later on the same line (here the scanner returns no live directive at all);
(3) whenever the escaped alternative matches, the scanner uses it (the
alternation tries it first), so that occurrence is never classified as
live. -/
theorem claim_C5_escape_shape :
    (∀ tail : List Char,
      matchEscapedAt ('/' :: '{' :: '{' :: ' ' :: tail) = none)
    ∧ find_unescaped_bookimports c5SwallowBody = []
    ∧ (∀ (l : List Char) (len : Nat), matchEscapedAt l = some len →
        tryMatchAt l = some (len, none)) := by
  refine ⟨?_, rfl, ?_⟩
  · intro tail
    simp [matchEscapedAt]
  · intro l len h
    unfold tryMatchAt
    rw [h]

def c5EscBody : List Char := "/\x7b\x7b#bookimport x.txt@y\x7d\x7d".toList

/-- Witness for C5: at a concrete escaped occurrence the scanner's match is
the escaped alternative (no capture groups), covering the whole
occurrence. -/
theorem claim_C5_witness : tryMatchAt c5EscBody = some (24, none) :=
  claim_C5_escape_shape.2.2 c5EscBody 24 (by decide)

/-- Claim C10: processing a chapter whose source path has no parent
directory — the empty component list, modelling the paths for which Rust's
`Path::parent` returns `None` — panics at the
`expect("All book items have a parent")`, for every filesystem, base
directory, name, content and sub-item list. -/
theorem claim_C10_no_parent_panics (fs : FS) (bsd : PathC)
    (n c : List Char) (subs : List BookItem) :
    process_chapter fs bsd (.chapter n c [] subs) = .error .noParent := rfl

end Bookimport
